import Mathlib

/-!
Verification of the `blake` crate: a Rust wrapper (`src/lib.rs`, `src/native.rs`)
around the BLAKE reference hash engine.  The wrapper's own logic (error-code
translation, the `as u64 * 8` bit-length conversion, the discarding of native
status codes by `update`/`finalise`, the FFI signatures) is embedded directly
from the Rust source.  The engine itself (`BLAKE_Hash_Init` / `AddSalt` /
`Update` / `Final` / `Hash`) is only declared in `src/native.rs`; its body is
not part of the repository, so it is modelled from the specification's
description of the incremental state machine, padding and compression
(definitions marked `Modelled from the spec:`).
-/

namespace BlakeRs

/-- The Rust `BlakeError` enum from `src/lib.rs`: exactly two variants,
`Fail` and `BadHashbitlen`. -/
inductive BlakeError where
  | Fail : BlakeError
  | BadHashbitlen : BlakeError
deriving DecidableEq

/-- Rust's `Result` type as used by the wrapper (`Ok`/`Err`). -/
inductive RustResult (ε α : Type) where
  | ok : α → RustResult ε α
  | err : ε → RustResult ε α
deriving DecidableEq

/-- `impl From<i32> for BlakeError` (`src/lib.rs:364-374`): code 1 maps to
`Fail`, code 2 to `BadHashbitlen`; code 0 and every other code panic, which is
embedded as `none`. -/
def BlakeError.fromCode (i : Int) : Option BlakeError :=
  if i = 1 then some BlakeError.Fail
  else if i = 2 then some BlakeError.BadHashbitlen
  else none

/-- Word width in bits of the variant family (spec §2: 32-bit family for
224/256, 64-bit family for 384/512). -/
def wordWidth (n : Int) : Nat :=
  if n = 224 ∨ n = 256 then 32 else 64

/-- Block size in bytes of the variant family (spec §2: 64-byte blocks for the
32-bit family, 128-byte blocks for the 64-bit family). -/
def blockSize (n : Int) : Nat :=
  if n = 224 ∨ n = 256 then 64 else 128

/-- Digest length in bytes per variant (spec §3: 28, 32, 48, 64). -/
def digestBytes (n : Int) : Nat :=
  if n = 224 then 28 else if n = 256 then 32 else if n = 384 then 48 else 64

/-- Salt length in bytes per variant (spec §6: 16 bytes for 224/256, 32 bytes
for 384/512). -/
def saltLength (n : Int) : Nat :=
  if n = 224 ∨ n = 256 then 16 else 32

/-- The double-width bit counter (spec §3: `total_bits_processed`, a 2-word
counter per family). -/
structure Counter where
  lo : Nat
  hi : Nat
deriving DecidableEq

/-- Add `b` bits to the 2-word counter, each word reduced modulo `2^w`, with
carry from the low word into the high word (spec §3: the counter "must
wrap/extend correctly for very large inputs"). -/
def addBits (w : Nat) (t : Counter) (b : Nat) : Counter :=
  ⟨(t.lo + b) % 2 ^ w, (t.hi + (t.lo + b) / 2 ^ w) % 2 ^ w⟩

/-- The value held by the 2-word counter. -/
def counterVal (w : Nat) (t : Counter) : Nat :=
  t.hi * 2 ^ w + t.lo

/-- Modelled from the spec: the hash state behind the opaque `raw_state`
pointer of the Rust `Blake` struct (spec §3 `HashState`): 8-word chaining
value, pending byte buffer, 2-word bit counter, salt, plus the `salt_locked`
and `is_open` status (spec §3, §4.4).  Words and bytes are `Nat`s reduced
modulo the word/byte range where they are produced. -/
structure Blake where
  hashbitlen : Int
  chain : List Nat
  t : Counter
  buf : List Nat
  salt : List Nat
  saltLocked : Bool
  isOpen : Bool
deriving DecidableEq

/-- Big-endian serialization of one `k`-byte word. -/
def wordBytesBE : Nat → Nat → List Nat
  | 0, _ => []
  | k + 1, x => wordBytesBE k (x / 256) ++ [x % 256]

/-- Modelled from the spec: the per-variant initialization vector (spec §4.1).
The spec fixes that each variant has its own distinct 8-word IV but does not
give the numeric tables, so a deterministic per-variant stand-in is used. -/
def iv (n : Int) : List Nat :=
  List.ofFn (fun i : Fin 8 => (n.toNat * 65537 + (i : Nat) + 1) % 2 ^ wordWidth n)

/-- Modelled from the spec: the compression function (spec §4.2), whose
contract is `compress(chaining_value, message_block, counter, salt,
is_last_block) -> new_chaining_value` plus the "no-counter" flag for the
padding-only block of empty input.  The spec does not give the round-constant
tables of the missing C implementation, so the mixing body is a deterministic
stand-in with the contract's arity; it always returns 8 words of the family
word width, and none of the state-machine theorems below depend on its body. -/
def compress (w : Nat) (chain block : List Nat) (t : Counter) (salt : List Nat)
    (lastBlock nullt : Bool) : List Nat :=
  let s := block.foldl (fun a b => (a * 257 + b + 1) % 2 ^ w) 0
  let sl := salt.foldl (fun a b => (a * 131 + b + 1) % 2 ^ w) 0
  List.ofFn (fun i : Fin 8 =>
    (chain.getD i 0 * 3 + s * 5 + sl * 7 + t.lo * 11 + t.hi * 13 +
      (if lastBlock then 17 else 0) + (if nullt then 19 else 0) + (i : Nat)) % 2 ^ w)

/-- Modelled from the spec: the draining loop of `update` (spec §4.4): while
the pending buffer holds at least one full block, compress that block,
advancing the counter by one block's worth of bits, leaving the remainder
buffered. -/
def drain (w bs : Nat) (salt chain : List Nat) (t : Counter) (buf : List Nat) :
    List Nat × Counter × List Nat :=
  if h : 0 < bs ∧ bs ≤ buf.length then
    drain w bs salt (compress w chain (buf.take bs) (addBits w t (8 * bs)) salt false false)
      (addBits w t (8 * bs)) (buf.drop bs)
  else (chain, t, buf)
termination_by buf.length
decreasing_by
  obtain ⟨h1, h2⟩ := h
  simp only [List.length_drop]
  omega

/-- The fresh state built by a successful `Init` (spec §4.4 `new`): IV chaining
value, zero counters, empty buffer, zero salt, nothing locked, open. -/
def mkState (n : Int) : Blake :=
  ⟨n, iv n, ⟨0, 0⟩, [], List.replicate (saltLength n) 0, false, true⟩

namespace native

/-- Modelled from the spec: the missing C `BLAKE_Hash_Init`'s status code
(spec §4.4): 0 (`SUCCESS`) for a supported `hashbitlen`, 2 (`BAD_HASHBITLEN`)
otherwise. -/
def InitCode (hashbitlen : Int) : Int :=
  if hashbitlen = 224 ∨ hashbitlen = 256 ∨ hashbitlen = 384 ∨ hashbitlen = 512
  then 0 else 2

/-- Modelled from the spec: the missing C `BLAKE_Hash_AddSalt` (spec §4.4):
legal only before any update (and on a live state); on success it stores the
salt and returns 0, otherwise it returns 1 (`FAIL`) and leaves the state
unchanged.  Its FFI signature (`src/native.rs:29`) passes only the salt
pointer, never a length, so the engine reads exactly `saltLength` bytes from
the caller's buffer and cannot validate the buffer's length (a shorter buffer
is an out-of-bounds read in the real code; the model takes what is there). -/
def AddSalt (st : Blake) (salt : List Nat) : Int × Blake :=
  if st.isOpen = false then (1, st)
  else if st.saltLocked then (1, st)
  else (0, { st with salt := salt.take (saltLength st.hashbitlen) })

/-- Modelled from the spec: the missing C `BLAKE_Hash_Update` over a byte
buffer (spec §4.4): append the bytes to the pending buffer and drain full
blocks; after any update the salt is locked.  A call on a finalized state is a
usage error (status 1) and leaves the state unchanged; on success the status
is 0 — the Rust wrapper discards this status either way. -/
def Update (st : Blake) (data : List Nat) : Int × Blake :=
  if st.isOpen then
    let r := drain (wordWidth st.hashbitlen) (blockSize st.hashbitlen) st.salt
      st.chain st.t (st.buf ++ data)
    (0, { st with chain := r.1, t := r.2.1, buf := r.2.2, saltLocked := true })
  else (1, st)

/-- The state after an update, the Rust wrapper's view (`Blake::update`
returns `()` and discards the native status code, `src/lib.rs:275-279`). -/
def update (st : Blake) (data : List Nat) : Blake :=
  (Update st data).2

/-- Modelled from the spec: the padded final message (spec §4.3): append the
padding byte (`0x80`, with the domain-separation bit flipped to `0x81` for the
full-width siblings 256/512), then zero bytes until the remaining space of the
final block is exactly the big-endian 2-word total-bit-length field. -/
def padMessage (n : Int) (buf : List Nat) (totalBits : Nat) : List Nat :=
  let bs := blockSize n
  let w := wordWidth n
  let lf := 2 * (w / 8)
  let padByte : Nat := if n = 256 ∨ n = 512 then 0x81 else 0x80
  let m := buf ++ [padByte]
  let zeros := (bs - (m.length + lf) % bs) % bs
  m ++ List.replicate zeros 0 ++
    (wordBytesBE (w / 8) (totalBits / 2 ^ w % 2 ^ w) ++ wordBytesBE (w / 8) (totalBits % 2 ^ w))

/-- Modelled from the spec: the missing C `BLAKE_Hash_Final` (spec §4.4
`finalize`, §4.3): add the pending bytes' bits to the counter, pad to one or
two final blocks, compress them (the true last block marked, and the
"no-counter" flag set for the padding-only block of empty input), serialize
the chaining value big-endian and truncate to the digest length.  Returns
(status, digest bytes written, new state); on a finalized state it is a usage
error (status 1, nothing written). -/
def Final (st : Blake) : Int × List Nat × Blake :=
  if st.isOpen then
    let w := wordWidth st.hashbitlen
    let bs := blockSize st.hashbitlen
    let tfin := addBits w st.t (8 * st.buf.length)
    let nullt := st.buf.isEmpty && st.t.lo == 0 && st.t.hi == 0
    let padded := padMessage st.hashbitlen st.buf (counterVal w tfin)
    let chain :=
      if padded.length ≤ bs then compress w st.chain padded tfin st.salt true nullt
      else compress w (compress w st.chain (padded.take bs) tfin st.salt false false)
        (padded.drop bs) tfin st.salt true nullt
    let digest := ((chain.map (wordBytesBE (w / 8))).flatten).take (digestBytes st.hashbitlen)
    (0, digest, { st with chain := chain, buf := [], isOpen := false })
  else (1, [], st)

end native

/-- The bit length the wrapper passes to the engine: `data.len() as u64 * 8`
(`src/lib.rs:115,277`), i.e. the byte count times 8 reduced modulo `2^64`
(release-mode wrapping semantics of the `u64` multiplication). -/
def toBits (len : Nat) : Nat :=
  len * 8 % 2 ^ 64

/-- The bytes the engine actually reads from the caller's buffer: the C side
receives the data pointer and `toBits` bits and consumes `databitlen / 8`
bytes from the pointer. -/
def consumed (data : List Nat) : List Nat :=
  data.take (toBits data.length / 8)

namespace Blake

/-- `Blake::new` (`src/lib.rs:190-200`): runs the native `Init`; status 0
yields `Ok(state)`, any other status is translated by `BlakeError::from`
(whose panic is embedded as `none`). -/
def new (hashbitlen : Int) : Option (RustResult BlakeError BlakeRs.Blake) :=
  if native.InitCode hashbitlen = 0 then some (RustResult.ok (mkState hashbitlen))
  else (BlakeError.fromCode (native.InitCode hashbitlen)).map RustResult.err

/-- `Blake::add_salt` (`src/lib.rs:240-245`): passes only the salt pointer to
the native `AddSalt`; status 0 yields `Ok`, any other status is translated by
`BlakeError::from` (panic embedded as `none`). -/
def add_salt (st : Blake) (salt : List Nat) : Option (RustResult BlakeError BlakeRs.Blake) :=
  let r := native.AddSalt st salt
  if r.1 = 0 then some (RustResult.ok r.2)
  else (BlakeError.fromCode r.1).map RustResult.err

/-- `Blake::update` (`src/lib.rs:275-279`): converts the byte count to bits
with `as u64 * 8`, hands the engine that many bits, returns `()` and discards
the native status code — so only the new state is observable and no error can
ever surface. -/
def update (st : Blake) (data : List Nat) : Blake :=
  (native.Update st (consumed data)).2

/-- `Blake::finalise` (`src/lib.rs:341-345`): passes only the output pointer
to the native `Final` — no buffer-length check — returns `()` and discards the
native status code.  The digest bytes are written through the pointer
regardless of the buffer's length, so the written memory is the digest
followed by whatever of the buffer lies beyond it (when the buffer is shorter
than the digest, the write runs past its end — the crate documents this as
undefined behaviour). -/
def finalise (st : Blake) (buffer : List Nat) : BlakeRs.Blake × List Nat :=
  let r := native.Final st
  (r.2.2, r.2.1 ++ buffer.drop r.2.1.length)

end Blake

/-- `hash` (`src/lib.rs:114-119`): the one-shot driver (spec §4.5) — native
`Init`, one `Update` over the converted bit length, `Final`; status 0 yields
`Ok` with the digest written, any other status is translated by
`BlakeError::from` (panic embedded as `none`). -/
def hash (hashbitlen : Int) (data : List Nat) : Option (RustResult BlakeError (List Nat)) :=
  if native.InitCode hashbitlen = 0 then
    some (RustResult.ok (native.Final (native.update (mkState hashbitlen) (consumed data))).2.1)
  else (BlakeError.fromCode (native.InitCode hashbitlen)).map RustResult.err

/-- The engine-level one-shot digest (spec §4.5): construct, one update over
the whole byte string, finalize. -/
def engineHash (hashbitlen : Int) (data : List Nat) : List Nat :=
  (native.Final (native.update (mkState hashbitlen) data)).2.1

theorem drain_stop (w bs : Nat) (salt chain : List Nat) (t : Counter) (buf : List Nat)
    (h : ¬(0 < bs ∧ bs ≤ buf.length)) : drain w bs salt chain t buf = (chain, t, buf) := by
  rw [drain]
  exact dif_neg h

theorem drain_step (w bs : Nat) (salt chain : List Nat) (t : Counter) (buf : List Nat)
    (h : 0 < bs ∧ bs ≤ buf.length) :
    drain w bs salt chain t buf =
      drain w bs salt (compress w chain (buf.take bs) (addBits w t (8 * bs)) salt false false)
        (addBits w t (8 * bs)) (buf.drop bs) := by
  rw [drain]
  exact dif_pos h

/-- Draining a concatenation equals draining the first part and then draining
its remainder together with the second part. -/
theorem drain_append (w bs : Nat) (salt chain : List Nat) (t : Counter) (x y : List Nat) :
    drain w bs salt chain t (x ++ y) =
      drain w bs salt (drain w bs salt chain t x).1 (drain w bs salt chain t x).2.1
        ((drain w bs salt chain t x).2.2 ++ y) := by
  by_cases h : 0 < bs ∧ bs ≤ x.length
  · have hxy : 0 < bs ∧ bs ≤ (x ++ y).length := by
      obtain ⟨h1, h2⟩ := h
      refine ⟨h1, ?_⟩
      simp only [List.length_append]
      omega
    rw [drain_step w bs salt chain t (x ++ y) hxy, drain_step w bs salt chain t x h,
      List.take_append_of_le_length h.2, List.drop_append_of_le_length h.2]
    exact drain_append w bs salt _ _ (x.drop bs) y
  · rw [drain_stop w bs salt chain t x h]
termination_by x.length
decreasing_by
  obtain ⟨h1, h2⟩ := h
  simp only [List.length_drop]
  omega

theorem update_isOpen (st : Blake) (d : List Nat) : (native.update st d).isOpen = st.isOpen := by
  by_cases h : st.isOpen <;> simp [native.update, native.Update, h]

theorem update_hashbitlen (st : Blake) (d : List Nat) :
    (native.update st d).hashbitlen = st.hashbitlen := by
  by_cases h : st.isOpen <;> simp [native.update, native.Update, h]

/-- One engine update after another is one engine update of the concatenation
(spec §4.4 chunk invariance at the state level). -/
theorem update_append (st : Blake) (a b : List Nat) :
    native.update (native.update st a) b = native.update st (a ++ b) := by
  by_cases h : st.isOpen
  · simp only [native.update, native.Update, h, if_true]
    simp only [← List.append_assoc]
    rw [drain_append (wordWidth st.hashbitlen) (blockSize st.hashbitlen) st.salt st.chain st.t
      (st.buf ++ a) b]
  · simp [native.update, native.Update, h]

/-- Folding engine updates over a non-empty chunk sequence equals one engine
update of the flattened bytes. -/
theorem foldl_update_eq (cs : List (List Nat)) (st : Blake) (a : List Nat) :
    List.foldl native.update (native.update st a) cs = native.update st (a ++ cs.flatten) := by
  induction cs generalizing st a with
  | nil => simp
  | cons c cs ih =>
    simp only [List.foldl_cons]
    rw [update_append st a c, ih st (a ++ c), List.flatten_cons, List.append_assoc]

/-- The digest written by the engine's `Final` does not depend on the
`salt_locked` flag. -/
theorem Final_digest_saltLocked (st : Blake) (b : Bool) :
    (native.Final { st with saltLocked := b }).2.1 = (native.Final st).2.1 := by
  by_cases h : st.isOpen <;> simp [native.Final, h]

/-- An engine update with no bytes only locks the salt. -/
theorem update_nil (st : Blake) (h : st.isOpen = true) (hbuf : st.buf = []) :
    native.update st [] = { st with saltLocked := true } := by
  simp only [native.update, native.Update, h, if_true, hbuf, List.append_nil, List.nil_append]
  rw [drain_stop _ _ _ _ _ _ (by rintro ⟨h1, h2⟩; simp at h2; omega)]

/-- Engine-level chunk invariance: for every digest size, every byte string
and every partition of it into chunks, feeding the chunks one by one to a
fresh engine state and finalising yields exactly the same digest bytes as one
engine update of the whole string followed by finalisation (the state machine
of spec §4.4/§4.5). -/
theorem engine_chunk_invariance (n : Int) (chunks : List (List Nat)) (s : List Nat)
    (hs : chunks.flatten = s) :
    (native.Final (List.foldl native.update (mkState n) chunks)).2.1 = engineHash n s := by
  subst hs
  cases chunks with
  | nil =>
    simp only [engineHash, List.foldl_nil, List.flatten_nil]
    rw [update_nil (mkState n) rfl rfl]
    exact (Final_digest_saltLocked (mkState n) true).symm
  | cons c cs =>
    simp only [engineHash, List.foldl_cons, List.flatten_cons]
    rw [foldl_update_eq cs (mkState n) c]

/-- An engine update whose bytes leave the pending buffer short of one block
only buffers them (and locks the salt). -/
theorem update_small (st : Blake) (d : List Nat) (h : st.isOpen = true)
    (hsmall : (st.buf ++ d).length < blockSize st.hashbitlen) :
    native.update st d = { st with buf := st.buf ++ d, saltLocked := true } := by
  simp only [native.update, native.Update, h, if_true]
  rw [drain_stop _ _ _ _ _ _ (by rintro ⟨h1, h2⟩; omega)]

/-- The modelled `Init` status is always 0 or 2. -/
theorem InitCode_cases (n : Int) : native.InitCode n = 0 ∨ native.InitCode n = 2 := by
  unfold native.InitCode
  split_ifs <;> simp

/-- The modelled `AddSalt` status is always 0 or 1. -/
theorem AddSalt_code_cases (st : Blake) (salt : List Nat) :
    (native.AddSalt st salt).1 = 0 ∨ (native.AddSalt st salt).1 = 1 := by
  unfold native.AddSalt
  split_ifs <;> simp

/-- C2: every `digest_bits` outside {224, 256, 384, 512} makes both
`Blake::new` and the one-shot `hash` return `Err(BadHashbitlen)` (no state, no
digest), and every value in that set succeeds. -/
theorem blake_c2 (n : Int) (data : List Nat) :
    (n ∉ ([224, 256, 384, 512] : List Int) →
      Blake.new n = some (RustResult.err BlakeError.BadHashbitlen) ∧
      hash n data = some (RustResult.err BlakeError.BadHashbitlen)) ∧
    (n ∈ ([224, 256, 384, 512] : List Int) →
      Blake.new n = some (RustResult.ok (mkState n)) ∧
      ∃ d, hash n data = some (RustResult.ok d)) := by
  constructor
  · intro h
    have hv : ¬(n = 224 ∨ n = 256 ∨ n = 384 ∨ n = 512) := by simpa using h
    have hc : native.InitCode n = 2 := by simp [native.InitCode, hv]
    constructor
    · simp [Blake.new, hc, BlakeError.fromCode]
    · simp [hash, hc, BlakeError.fromCode]
  · intro h
    have hv : n = 224 ∨ n = 256 ∨ n = 384 ∨ n = 512 := by simpa using h
    have hc : native.InitCode n = 0 := by simp [native.InitCode, hv]
    constructor
    · simp [Blake.new, hc]
    · exact ⟨(native.Final (native.update (mkState n) (consumed data))).2.1,
        by simp [hash, hc]⟩

/-- C2 witness: `new(100)`/`hash(100, ..)` fail with `BadHashbitlen`,
`new(256)`/`hash(256, ..)` succeed. -/
theorem blake_c2_witness :
    (Blake.new 100 = some (RustResult.err BlakeError.BadHashbitlen) ∧
      hash 100 [7] = some (RustResult.err BlakeError.BadHashbitlen)) ∧
    (Blake.new 256 = some (RustResult.ok (mkState 256)) ∧
      ∃ d, hash 256 [7] = some (RustResult.ok d)) :=
  ⟨(blake_c2 100 [7]).1 (by decide), (blake_c2 256 [7]).2 (by decide)⟩

/-- C8: hashing is deterministic — two computations of the same input from
independently constructed fresh states with the same salt configuration yield
byte-identical digests (the model is a pure function of the variant, salt and
input, so both runs coincide). -/
theorem blake_c8 (n : Int) (hn : n ∈ ([224, 256, 384, 512] : List Int))
    (s salt : List Nat) (st1 st2 : Blake)
    (h1 : st1 = (native.AddSalt (mkState n) salt).2)
    (h2 : st2 = (native.AddSalt (mkState n) salt).2) :
    (native.Final (native.update st1 s)).2.1 = (native.Final (native.update st2 s)).2.1 := by
  subst h1
  subst h2
  rfl

/-- C8 witness: two salted 256-bit runs over the same concrete input. -/
theorem blake_c8_witness :
    (native.Final (native.update (native.AddSalt (mkState 256) (List.replicate 16 7)).2
        [1, 2])).2.1 =
      (native.Final (native.update (native.AddSalt (mkState 256) (List.replicate 16 7)).2
        [1, 2])).2.1 :=
  blake_c8 256 (by decide) [1, 2] (List.replicate 16 7) _ _ rfl rfl

/-- C9: the panic in `From<i32> for BlakeError` (on code 0 or any code other
than 1 or 2) is unreachable from the public API: the conversion is applied
only to nonzero native statuses, the modelled engine statuses are 2 for a bad
`hashbitlen` in `Init`/`Hash` and 1 for a rejected `AddSalt`, and `update` /
`finalise` discard their statuses — so `new`, `hash` and `add_salt` never hit
the panic (embedded as `none`) for any argument or state. -/
theorem blake_c9 (n : Int) (st : Blake) (data salt : List Nat) :
    (native.InitCode n ≠ 0 → native.InitCode n = 2 ∧
      BlakeError.fromCode (native.InitCode n) = some BlakeError.BadHashbitlen) ∧
    ((native.AddSalt st salt).1 ≠ 0 → (native.AddSalt st salt).1 = 1 ∧
      BlakeError.fromCode (native.AddSalt st salt).1 = some BlakeError.Fail) ∧
    Blake.new n ≠ none ∧ hash n data ≠ none ∧ Blake.add_salt st salt ≠ none := by
  have hi := InitCode_cases n
  have ha := AddSalt_code_cases st salt
  refine ⟨?_, ?_, ?_, ?_, ?_⟩
  · intro h
    rcases hi with hi | hi
    · exact absurd hi h
    · exact ⟨hi, by simp [hi, BlakeError.fromCode]⟩
  · intro h
    rcases ha with ha | ha
    · exact absurd ha h
    · exact ⟨ha, by simp [ha, BlakeError.fromCode]⟩
  · rcases hi with hi | hi <;> simp [Blake.new, hi, BlakeError.fromCode]
  · rcases hi with hi | hi <;> simp [hash, hi, BlakeError.fromCode]
  · rcases ha with ha | ha <;> simp [Blake.add_salt, ha, BlakeError.fromCode]

/-- C9 witness: a bad bit length (0) and a locked state both take the
conversion, which lands on codes 2 and 1 respectively; no call panics. -/
theorem blake_c9_witness :
    (native.InitCode 0 = 2 ∧
      BlakeError.fromCode (native.InitCode 0) = some BlakeError.BadHashbitlen) ∧
    ((native.AddSalt ⟨256, [1, 2, 3, 4, 5, 6, 7, 8], ⟨0, 0⟩, [], List.replicate 16 0, true,
        true⟩ [9]).1 = 1 ∧
      BlakeError.fromCode (native.AddSalt ⟨256, [1, 2, 3, 4, 5, 6, 7, 8], ⟨0, 0⟩, [],
        List.replicate 16 0, true, true⟩ [9]).1 = some BlakeError.Fail) ∧
    Blake.new 0 ≠ none :=
  ⟨(blake_c9 0 ⟨256, [1, 2, 3, 4, 5, 6, 7, 8], ⟨0, 0⟩, [], List.replicate 16 0, true, true⟩
      [] [9]).1 (by decide),
    (blake_c9 0 ⟨256, [1, 2, 3, 4, 5, 6, 7, 8], ⟨0, 0⟩, [], List.replicate 16 0, true, true⟩
      [] [9]).2.1 (by decide),
    (blake_c9 0 ⟨256, [1, 2, 3, 4, 5, 6, 7, 8], ⟨0, 0⟩, [], List.replicate 16 0, true, true⟩
      [] [9]).2.2.1⟩

theorem wordBytesBE_length (k : Nat) : ∀ x : Nat, (wordBytesBE k x).length = k := by
  induction k with
  | zero => intro x; rfl
  | succ k ih => intro x; simp [wordBytesBE, ih]

theorem flatten_map_wordBytesBE_length (m : Nat) (l : List Nat) :
    ((l.map (wordBytesBE m)).flatten).length = l.length * m := by
  induction l with
  | nil => simp
  | cons a l ih => simp [ih, wordBytesBE_length]; ring

theorem compress_length (w : Nat) (chain block : List Nat) (t : Counter) (salt : List Nat)
    (lastBlock nullt : Bool) : (compress w chain block t salt lastBlock nullt).length = 8 := by
  simp [compress]

/-- Every digest length fits inside the serialized 8-word chaining value. -/
theorem digestBytes_le (n : Int) : digestBytes n ≤ 8 * (wordWidth n / 8) := by
  unfold digestBytes wordWidth
  split_ifs <;> omega

/-- The engine's `Final` on a live state writes exactly the variant's digest
length. -/
theorem Final_digest_length (st : Blake) (h : st.isOpen = true) :
    (native.Final st).2.1.length = digestBytes st.hashbitlen := by
  simp only [native.Final, h, if_true]
  split_ifs with hp <;>
    · rw [List.length_take, flatten_map_wordBytesBE_length, compress_length]
      exact Nat.min_eq_left (digestBytes_le st.hashbitlen)

theorem foldl_update_isOpen (cs : List (List Nat)) (st : Blake) :
    (List.foldl native.update st cs).isOpen = st.isOpen := by
  induction cs generalizing st with
  | nil => rfl
  | cons c cs ih => rw [List.foldl_cons, ih, update_isOpen]

theorem foldl_update_hashbitlen (cs : List (List Nat)) (st : Blake) :
    (List.foldl native.update st cs).hashbitlen = st.hashbitlen := by
  induction cs generalizing st with
  | nil => rfl
  | cons c cs ih => rw [List.foldl_cons, ih, update_hashbitlen]

/-- C3: for every supported digest size `n`, a successful hash computation —
incremental over any chunk sequence, or one-shot — produces a digest of
exactly `n / 8` bytes. -/
theorem blake_c3 (n : Int) (hn : n ∈ ([224, 256, 384, 512] : List Int))
    (chunks : List (List Nat)) (data : List Nat) :
    ((native.Final (List.foldl native.update (mkState n) chunks)).2.1).length = n.toNat / 8 ∧
    (∀ d, hash n data = some (RustResult.ok d) → d.length = n.toNat / 8) := by
  have hv : n = 224 ∨ n = 256 ∨ n = 384 ∨ n = 512 := by simpa using hn
  have hd : digestBytes n = n.toNat / 8 := by
    rcases hv with h | h | h | h <;> subst h <;> decide
  constructor
  · rw [Final_digest_length _ (by rw [foldl_update_isOpen]; rfl),
      foldl_update_hashbitlen, ← hd]
    rfl
  · intro d hdig
    have hc : native.InitCode n = 0 := by simp [native.InitCode, hv]
    simp only [hash, hc, if_pos, Option.some.injEq] at hdig
    have : (native.Final (native.update (mkState n) (consumed data))).2.1 = d := by
      cases hdig; rfl
    rw [← this, Final_digest_length _ (by rw [update_isOpen]; rfl),
      update_hashbitlen, ← hd]
    rfl

/-- C3 witness: 384-bit digests of a chunked and a one-shot computation both
have 48 bytes. -/
theorem blake_c3_witness :
    ((native.Final (List.foldl native.update (mkState 384) [[5], [6]])).2.1).length =
        (384 : Int).toNat / 8 ∧
      (∀ d, hash 384 [9, 9] = some (RustResult.ok d) → d.length = (384 : Int).toNat / 8) :=
  blake_c3 384 (by decide) [[5], [6]] [9, 9]

/-- C5: once any update has been made the salt is locked: a subsequent
`add_salt` returns `Err(Fail)` with the engine state unchanged (so the digest
computation is unaffected); before any update, `add_salt` on a live state
succeeds and stores the salt. -/
theorem blake_c5 (st st0 : Blake) (d salt : List Nat) :
    (st0.isOpen = true → (native.update st0 d).saltLocked = true) ∧
    (st.saltLocked = true →
      Blake.add_salt st salt = some (RustResult.err BlakeError.Fail) ∧
      native.AddSalt st salt = (1, st)) ∧
    (st.saltLocked = false → st.isOpen = true →
      Blake.add_salt st salt =
        some (RustResult.ok { st with salt := salt.take (saltLength st.hashbitlen) })) := by
  refine ⟨?_, ?_, ?_⟩
  · intro h
    simp [native.update, native.Update, h]
  · intro h
    have hcode : native.AddSalt st salt = (1, st) := by
      by_cases ho : st.isOpen = false <;> simp [native.AddSalt, ho, h]
    refine ⟨?_, hcode⟩
    simp [Blake.add_salt, hcode, BlakeError.fromCode]
  · intro h1 h2
    simp [Blake.add_salt, native.AddSalt, h1, h2]

/-- C5 witness: a first update locks the salt; `add_salt` on a locked state
fails with `Fail`; `add_salt` on a fresh 256-bit state succeeds. -/
theorem blake_c5_witness :
    (native.update (mkState 256) [1]).saltLocked = true ∧
    Blake.add_salt ⟨256, [1, 2, 3, 4, 5, 6, 7, 8], ⟨64, 0⟩, [], List.replicate 16 0, true, true⟩
        (List.replicate 16 3) = some (RustResult.err BlakeError.Fail) ∧
    Blake.add_salt (mkState 256) (List.replicate 16 3) =
      some (RustResult.ok
        { mkState 256 with salt := (List.replicate 16 3).take (saltLength 256) }) :=
  ⟨(blake_c5 (mkState 256) (mkState 256) [1] (List.replicate 16 3)).1 rfl,
    ((blake_c5 ⟨256, [1, 2, 3, 4, 5, 6, 7, 8], ⟨64, 0⟩, [], List.replicate 16 0, true, true⟩
      (mkState 256) [1] (List.replicate 16 3)).2.1 rfl).1,
    (blake_c5 (mkState 256) (mkState 256) [1] (List.replicate 16 3)).2.2 rfl rfl⟩

set_option maxRecDepth 100000 in
/-- C4 counterexample: on the state left by `finalise`-ing a fresh 256-bit
state, a further `update` does not fail with any error: the modelled engine
signals status 1, but the wrapper's `update` returns `()` (only the unchanged
state is observable — silent acceptance), and `finalise` after `finalise`
likewise only signals a discarded status 1.  No `InvalidStateTransition`
variant exists in `BlakeError`. -/
theorem blake_c4_counterexample :
    (native.Update (native.Final (mkState 256)).2.2 [120]).1 = 1 ∧
    Blake.update (native.Final (mkState 256)).2.2 [120] = (native.Final (mkState 256)).2.2 ∧
    (native.Final (native.Final (mkState 256)).2.2).1 = 1 := by
  decide

/-- C4 amended: after `finalise`, further `update` or `finalise` calls are
silently accepted rather than failing with `InvalidStateTransition`: the Rust
`update`/`finalise` return `()` and discard the native status, the modelled
engine rejects the call with status 1 leaving the state unchanged and writing
nothing, and `BlakeError` has only the `Fail` and `BadHashbitlen` variants. -/
theorem blake_c4 (st : Blake) (d buf : List Nat) (h : st.isOpen = false) :
    Blake.update st d = st ∧
    (native.Update st (consumed d)).1 = 1 ∧
    (native.Final st).1 = 1 ∧
    Blake.finalise st buf = (st, buf) ∧
    (∀ e : BlakeError, e = BlakeError.Fail ∨ e = BlakeError.BadHashbitlen) := by
  refine ⟨?_, ?_, ?_, ?_, ?_⟩
  · simp [Blake.update, native.update, native.Update, h]
  · simp [native.Update, h]
  · simp [native.Final, h]
  · simp [Blake.finalise, native.Final, h]
  · intro e
    cases e
    · exact Or.inl rfl
    · exact Or.inr rfl

/-- C4 witness: a concrete finalized state. -/
theorem blake_c4_witness :
    Blake.update ⟨256, [1, 2, 3, 4, 5, 6, 7, 8], ⟨64, 0⟩, [], List.replicate 16 0, true, false⟩
        [9] =
      ⟨256, [1, 2, 3, 4, 5, 6, 7, 8], ⟨64, 0⟩, [], List.replicate 16 0, true, false⟩ ∧
    (native.Update ⟨256, [1, 2, 3, 4, 5, 6, 7, 8], ⟨64, 0⟩, [], List.replicate 16 0, true,
        false⟩ (consumed [9])).1 = 1 ∧
    (native.Final ⟨256, [1, 2, 3, 4, 5, 6, 7, 8], ⟨64, 0⟩, [], List.replicate 16 0, true,
        false⟩).1 = 1 ∧
    Blake.finalise ⟨256, [1, 2, 3, 4, 5, 6, 7, 8], ⟨64, 0⟩, [], List.replicate 16 0, true,
        false⟩ [0, 0] =
      (⟨256, [1, 2, 3, 4, 5, 6, 7, 8], ⟨64, 0⟩, [], List.replicate 16 0, true, false⟩, [0, 0]) ∧
    (∀ e : BlakeError, e = BlakeError.Fail ∨ e = BlakeError.BadHashbitlen) :=
  blake_c4 ⟨256, [1, 2, 3, 4, 5, 6, 7, 8], ⟨64, 0⟩, [], List.replicate 16 0, true, false⟩
    [9] [0, 0] rfl

set_option maxRecDepth 100000 in
/-- C6 counterexample: a 17-byte salt on a fresh 256-bit state (whose required
salt length is 16) is accepted with `Ok` — no `BadSaltLength` error exists and
no length validation happens (the FFI `BLAKE_Hash_AddSalt` receives only the
salt pointer); the engine stores the first 16 bytes it reads. -/
theorem blake_c6_counterexample :
    saltLength 256 = 16 ∧ (17 : Nat) ≠ 16 ∧
    Blake.add_salt (mkState 256) (List.replicate 17 1) =
      some (RustResult.ok { mkState 256 with salt := List.replicate 16 1 }) := by
  decide

/-- C6 amended: `add_salt` performs no salt-length validation: on a fresh
state any salt buffer whatsoever is accepted with `Ok`, only the variant's
salt length's worth of bytes is read from it (a shorter buffer is an
out-of-bounds read in the real code), and the result depends only on those
bytes; `BlakeError` has no `BadSaltLength` variant. -/
theorem blake_c6 (st : Blake) (salt salt2 : List Nat) (h1 : st.saltLocked = false)
    (h2 : st.isOpen = true) :
    Blake.add_salt st salt =
      some (RustResult.ok { st with salt := salt.take (saltLength st.hashbitlen) }) ∧
    (salt.take (saltLength st.hashbitlen) = salt2.take (saltLength st.hashbitlen) →
      Blake.add_salt st salt2 = Blake.add_salt st salt) := by
  constructor
  · simp [Blake.add_salt, native.AddSalt, h1, h2]
  · intro he
    simp [Blake.add_salt, native.AddSalt, h1, h2, he]

/-- C6 witness: an over-long (20-byte) salt on a fresh 256-bit state. -/
theorem blake_c6_witness :
    Blake.add_salt (mkState 256) (List.replicate 20 2) =
      some (RustResult.ok
        { mkState 256 with salt := (List.replicate 20 2).take (saltLength 256) }) ∧
    ((List.replicate 20 2).take (saltLength 256) =
        (List.replicate 16 2).take (saltLength 256) →
      Blake.add_salt (mkState 256) (List.replicate 16 2) =
        Blake.add_salt (mkState 256) (List.replicate 20 2)) :=
  blake_c6 (mkState 256) (List.replicate 20 2) (List.replicate 16 2) rfl rfl

set_option maxRecDepth 100000 in
/-- C7 counterexample: `finalise` on a fresh 256-bit state with an empty
output buffer (shorter than the 32-byte digest) is not rejected: the engine
reports status 0 (which the wrapper discards — there is no
`OutputBufferTooSmall` error, nor any error channel at all on `finalise`), and
all 32 digest bytes are written through the pointer, i.e. past the buffer's
end. -/
theorem blake_c7_counterexample :
    ([] : List Nat).length < digestBytes 256 ∧
    (native.Final (mkState 256)).1 = 0 ∧
    (Blake.finalise (mkState 256) []).2.length = 32 := by
  decide

/-- C7 amended: `finalise` performs no buffer-length check and can surface no
error: on a live state the engine status is 0, exactly the variant's digest
length is written through the pointer regardless of the buffer's length, so
the written region has length `max (digest length) (buffer length)` — when the
buffer is shorter, the write runs past its end (undefined behaviour, as the
crate's documentation itself states). -/
theorem blake_c7 (st : Blake) (buf : List Nat) (h : st.isOpen = true) :
    (native.Final st).1 = 0 ∧
    (native.Final st).2.1.length = digestBytes st.hashbitlen ∧
    (Blake.finalise st buf).2.length = max (digestBytes st.hashbitlen) buf.length := by
  have hl := Final_digest_length st h
  refine ⟨by simp [native.Final, h], hl, ?_⟩
  simp only [Blake.finalise, List.length_append, List.length_drop, hl]
  omega

/-- C7 witness: a fresh 384-bit state and a 2-byte buffer. -/
theorem blake_c7_witness :
    (native.Final (mkState 384)).1 = 0 ∧
    (native.Final (mkState 384)).2.1.length = digestBytes 384 ∧
    (Blake.finalise (mkState 384) [0, 0]).2.length =
      max (digestBytes 384) ([0, 0] : List Nat).length :=
  blake_c7 (mkState 384) [0, 0] rfl

/-- Carrying a low-word overflow into the high word preserves the 2-word value
modulo the double-width range. -/
theorem two_word_mod (W hi lo b : Nat) :
    ((hi + (lo + b) / W) % W * W + (lo + b) % W) % (W * W) = (hi * W + lo + b) % (W * W) := by
  have e1 : (hi + (lo + b) / W) % W * W + (lo + b) % W + (hi + (lo + b) / W) / W * (W * W)
      = (hi + (lo + b) / W) * W + (lo + b) % W := by
    calc (hi + (lo + b) / W) % W * W + (lo + b) % W + (hi + (lo + b) / W) / W * (W * W)
        = (W * ((hi + (lo + b) / W) / W) + (hi + (lo + b) / W) % W) * W + (lo + b) % W := by
          ring
      _ = (hi + (lo + b) / W) * W + (lo + b) % W := by rw [Nat.div_add_mod]
  have e2 : (hi + (lo + b) / W) * W + (lo + b) % W = hi * W + lo + b := by
    calc (hi + (lo + b) / W) * W + (lo + b) % W
        = hi * W + (W * ((lo + b) / W) + (lo + b) % W) := by ring
      _ = hi * W + (lo + b) := by rw [Nat.div_add_mod]
      _ = hi * W + lo + b := by ring
  calc ((hi + (lo + b) / W) % W * W + (lo + b) % W) % (W * W)
      = ((hi + (lo + b) / W) % W * W + (lo + b) % W +
          (hi + (lo + b) / W) / W * (W * W)) % (W * W) :=
        (Nat.add_mul_mod_self_right _ _ _).symm
    _ = (hi * W + lo + b) % (W * W) := by rw [e1, e2]

/-- `addBits` adds the given bit count to the 2-word counter's value modulo
the double-width range. -/
theorem counterVal_addBits (w : Nat) (t : Counter) (b : Nat) :
    counterVal w (addBits w t b) % 2 ^ (2 * w) = (counterVal w t + b) % 2 ^ (2 * w) := by
  have hW : (2 : Nat) ^ (2 * w) = 2 ^ w * 2 ^ w := by rw [two_mul, pow_add]
  simp only [counterVal, addBits, hW]
  exact two_word_mod (2 ^ w) t.hi t.lo b

/-- The total bits a state accounts for: the 2-word counter's value plus the
bits still pending (uncompressed) in the buffer. -/
def trackedBits (st : Blake) : Nat :=
  counterVal (wordWidth st.hashbitlen) st.t + 8 * st.buf.length

/-- Draining preserves counter-plus-pending bits modulo the double-width
range. -/
theorem drain_tracked (w bs : Nat) (salt chain : List Nat) (t : Counter) (buf : List Nat) :
    (counterVal w (drain w bs salt chain t buf).2.1 +
        8 * (drain w bs salt chain t buf).2.2.length) % 2 ^ (2 * w) =
      (counterVal w t + 8 * buf.length) % 2 ^ (2 * w) := by
  by_cases h : 0 < bs ∧ bs ≤ buf.length
  · rw [drain_step w bs salt chain t buf h,
      drain_tracked w bs salt _ _ (buf.drop bs), List.length_drop]
    calc (counterVal w (addBits w t (8 * bs)) + 8 * (buf.length - bs)) % 2 ^ (2 * w)
        = (counterVal w (addBits w t (8 * bs)) % 2 ^ (2 * w) + 8 * (buf.length - bs)) %
            2 ^ (2 * w) := (Nat.mod_add_mod _ _ _).symm
      _ = ((counterVal w t + 8 * bs) % 2 ^ (2 * w) + 8 * (buf.length - bs)) % 2 ^ (2 * w) := by
          rw [counterVal_addBits]
      _ = (counterVal w t + 8 * bs + 8 * (buf.length - bs)) % 2 ^ (2 * w) :=
          Nat.mod_add_mod _ _ _
      _ = (counterVal w t + 8 * buf.length) % 2 ^ (2 * w) := by
          congr 1
          omega
  · rw [drain_stop w bs salt chain t buf h]
termination_by buf.length
decreasing_by
  obtain ⟨h1, h2⟩ := h
  simp only [List.length_drop]
  omega

theorem Blake_update_def (st : Blake) (d : List Nat) :
    Blake.update st d = native.update st (consumed d) := rfl

/-- One engine update adds the consumed bytes' bits to the tracked total,
modulo the double-width range. -/
theorem update_tracked (st : Blake) (d : List Nat) (h : st.isOpen = true) :
    trackedBits (native.update st d) % 2 ^ (2 * wordWidth st.hashbitlen)
      = (trackedBits st + 8 * d.length) % 2 ^ (2 * wordWidth st.hashbitlen) := by
  simp only [trackedBits, native.update, native.Update, h, if_true]
  rw [drain_tracked]
  congr 1
  rw [List.length_append]
  ring

/-- The conversion `data.len() as u64 * 8` is exact below `2^61` bytes. -/
theorem consumed_of_small (d : List Nat) (hd : d.length < 2 ^ 61) : consumed d = d := by
  have h8 : (2 : Nat) ^ 61 * 8 = 2 ^ 64 := by norm_num
  have hlt : d.length * 8 < 2 ^ 64 := by omega
  simp only [consumed, toBits]
  rw [Nat.mod_eq_of_lt hlt, Nat.mul_div_cancel _ (by norm_num : 0 < 8), List.take_length]

/-- Folding wrapper updates of small chunks accumulates the tracked bits of
all chunks, modulo the double-width range. -/
theorem foldl_tracked (chunks : List (List Nat)) (st : Blake) (h : st.isOpen = true)
    (hc : ∀ c ∈ chunks, c.length < 2 ^ 61) :
    trackedBits (List.foldl Blake.update st chunks) % 2 ^ (2 * wordWidth st.hashbitlen)
      = (trackedBits st + 8 * (chunks.map List.length).sum) %
          2 ^ (2 * wordWidth st.hashbitlen) := by
  induction chunks generalizing st with
  | nil => simp
  | cons c cs ih =>
    have hcl : c.length < 2 ^ 61 := hc c (List.mem_cons_self c cs)
    have hcons : consumed c = c := consumed_of_small c hcl
    have hop : (Blake.update st c).isOpen = st.isOpen := by
      rw [Blake_update_def, update_isOpen]
    have hhb : (Blake.update st c).hashbitlen = st.hashbitlen := by
      rw [Blake_update_def, update_hashbitlen]
    have step : trackedBits (Blake.update st c) % 2 ^ (2 * wordWidth st.hashbitlen)
        = (trackedBits st + 8 * c.length) % 2 ^ (2 * wordWidth st.hashbitlen) := by
      rw [Blake_update_def, hcons]
      exact update_tracked st c h
    have ihc := ih (Blake.update st c) (by rw [hop]; exact h)
      (fun x hx => hc x (List.mem_cons_of_mem _ hx))
    rw [hhb] at ihc
    rw [List.foldl_cons, ihc]
    calc (trackedBits (Blake.update st c) + 8 * (cs.map List.length).sum) %
          2 ^ (2 * wordWidth st.hashbitlen)
        = (trackedBits (Blake.update st c) % 2 ^ (2 * wordWidth st.hashbitlen) +
            8 * (cs.map List.length).sum) % 2 ^ (2 * wordWidth st.hashbitlen) :=
          (Nat.mod_add_mod _ _ _).symm
      _ = ((trackedBits st + 8 * c.length) % 2 ^ (2 * wordWidth st.hashbitlen) +
            8 * (cs.map List.length).sum) % 2 ^ (2 * wordWidth st.hashbitlen) := by
          rw [step]
      _ = (trackedBits st + 8 * c.length + 8 * (cs.map List.length).sum) %
            2 ^ (2 * wordWidth st.hashbitlen) := Nat.mod_add_mod _ _ _
      _ = (trackedBits st + 8 * ((c :: cs).map List.length).sum) %
            2 ^ (2 * wordWidth st.hashbitlen) := by
          congr 1
          rw [List.map_cons, List.sum_cons]
          ring

/-- C10 counterexample: the per-call conversion `data.len() as u64 * 8` loses
information for representable input lengths: a `2^61`-byte input converts to
the same bit count as an empty input (the `u64` product `2^64` wraps to 0), so
the wrapper hands the engine zero bytes of it — the counter then tracks none
of the provided input. -/
theorem blake_c10_counterexample :
    toBits (2 ^ 61) = toBits 0 ∧ (2 ^ 61 : Nat) ≠ 0 ∧
    consumed (List.replicate (2 ^ 61) 1) = [] := by
  refine ⟨rfl, by norm_num, ?_⟩
  show List.take (toBits (List.replicate (2 ^ 61) 1).length / 8) _ = []
  rw [List.length_replicate, show toBits (2 ^ 61) / 8 = 0 from rfl]
  exact List.take_zero (List.replicate (2 ^ 61) 1)

/-- C10 amended: the 2-word counter (together with the bits still pending in
the buffer) tracks 8 × the bytes consumed across all update calls modulo the
double-width range `2^(2w)`, and the wrapper's per-call byte-to-bit conversion
is exact only for calls of fewer than `2^61` bytes — at and beyond `2^61` the
`u64` product wraps modulo `2^64` and loses information. -/
theorem blake_c10 (st : Blake) (n : Int) (d : List Nat) (len : Nat)
    (chunks : List (List Nat)) (h : st.isOpen = true) (hlen : len < 2 ^ 61)
    (hd : d.length < 2 ^ 61) (hc : ∀ c ∈ chunks, c.length < 2 ^ 61) :
    toBits len = 8 * len ∧
    consumed d = d ∧
    trackedBits (Blake.update st d) % 2 ^ (2 * wordWidth st.hashbitlen)
      = (trackedBits st + 8 * d.length) % 2 ^ (2 * wordWidth st.hashbitlen) ∧
    trackedBits (List.foldl Blake.update (mkState n) chunks) % 2 ^ (2 * wordWidth n)
      = 8 * (chunks.map List.length).sum % 2 ^ (2 * wordWidth n) := by
  have h8 : (2 : Nat) ^ 61 * 8 = 2 ^ 64 := by norm_num
  refine ⟨?_, consumed_of_small d hd, ?_, ?_⟩
  · have hlt : len * 8 < 2 ^ 64 := by omega
    simp only [toBits]
    rw [Nat.mod_eq_of_lt hlt]
    ring
  · rw [Blake_update_def, consumed_of_small d hd]
    exact update_tracked st d h
  · have h0 : trackedBits (mkState n) = 0 := by
      simp [trackedBits, mkState, counterVal]
    have := foldl_tracked chunks (mkState n) rfl hc
    rw [h0, Nat.zero_add] at this
    exact this

/-- C10 witness: small concrete calls where the conversion is exact and the
tracked bits accumulate. -/
theorem blake_c10_witness :
    toBits 5 = 8 * 5 ∧
    consumed [3] = [3] ∧
    trackedBits (Blake.update (mkState 256) [3]) % 2 ^ (2 * wordWidth (mkState 256).hashbitlen)
      = (trackedBits (mkState 256) + 8 * ([3] : List Nat).length) %
          2 ^ (2 * wordWidth (mkState 256).hashbitlen) ∧
    trackedBits (List.foldl Blake.update (mkState 256) [[1], [2]]) % 2 ^ (2 * wordWidth 256)
      = 8 * (([[1], [2]] : List (List Nat)).map List.length).sum % 2 ^ (2 * wordWidth 256) :=
  blake_c10 (mkState 256) 256 [3] 5 [[1], [2]] rfl (by norm_num) (by norm_num)
    (by intro c hc; fin_cases hc <;> norm_num)

/-- A wrapper update with a chunk below the `2^61`-byte conversion bound is
exactly an engine update, and likewise chunk by chunk along a fold. -/
theorem foldl_wrapper_eq_engine (chunks : List (List Nat)) (st : Blake)
    (hc : ∀ c ∈ chunks, c.length < 2 ^ 61) :
    List.foldl Blake.update st chunks = List.foldl native.update st chunks := by
  induction chunks generalizing st with
  | nil => rfl
  | cons c cs ih =>
    rw [List.foldl_cons, List.foldl_cons, Blake_update_def,
      consumed_of_small c (hc c (List.mem_cons_self c cs))]
    exact ih _ (fun x hx => hc x (List.mem_cons_of_mem _ hx))

set_option maxRecDepth 100000 in
/-- C1 counterexample: through the public operations the chunk equivalence
fails for a concrete `2^61 + 1`-byte string.  Chunked as a `2^61`-byte chunk
followed by `[3]`, the wrapper's `as u64 * 8` conversion wraps the first
chunk's bit length to 0 (so `Blake::update` consumes none of it) and the
second update buffers the byte 3; the one-shot `hash` converts `2^61 + 1`
bytes to 8 bits and consumes exactly the first byte, 2.  The incremental
finalise therefore digests `[3]` while the one-shot digests `[2]`, and the
digests differ. -/
theorem blake_c1_counterexample :
    ([2 :: List.replicate (2 ^ 61 - 1) 0, [3]] : List (List Nat)).flatten
        = 2 :: (List.replicate (2 ^ 61 - 1) 0 ++ [3]) ∧
    hash 256 (2 :: (List.replicate (2 ^ 61 - 1) 0 ++ [3])) ≠
      some (RustResult.ok
        ((Blake.finalise
            (List.foldl Blake.update (mkState 256)
              [2 :: List.replicate (2 ^ 61 - 1) 0, [3]])
            (List.replicate (digestBytes 256) 0)).2)) := by
  constructor
  · rw [List.flatten_cons, List.flatten_cons, List.flatten_nil, List.append_nil,
      List.cons_append]
  · have hslen : (2 :: (List.replicate (2 ^ 61 - 1) 0 ++ [3])).length = 2 ^ 61 + 1 := by
      rw [List.length_cons, List.length_append, List.length_replicate,
        List.length_singleton]
      norm_num
    have hcons : consumed (2 :: (List.replicate (2 ^ 61 - 1) 0 ++ [3])) = [2] := by
      show List.take _ _ = [2]
      rw [hslen, show toBits (2 ^ 61 + 1) / 8 = 1 from rfl]
      rfl
    have hc1 : consumed (2 :: List.replicate (2 ^ 61 - 1) 0) = [] := by
      show List.take _ _ = []
      have hl : (2 :: List.replicate (2 ^ 61 - 1) 0).length = 2 ^ 61 := by
        rw [List.length_cons, List.length_replicate]
        norm_num
      rw [hl, show toBits (2 ^ 61) / 8 = 0 from rfl]
      exact List.take_zero _
    have hhash : hash 256 (2 :: (List.replicate (2 ^ 61 - 1) 0 ++ [3]))
        = some (RustResult.ok
            (native.Final
              { mkState 256 with buf := (mkState 256).buf ++ [2], saltLocked := true }).2.1) := by
      unfold hash
      rw [if_pos (show native.InitCode 256 = 0 by decide), hcons,
        update_small (mkState 256) [2] rfl (by decide)]
    have hu1 : Blake.update (mkState 256) (2 :: List.replicate (2 ^ 61 - 1) 0)
        = { mkState 256 with saltLocked := true } := by
      rw [Blake_update_def, hc1, update_nil (mkState 256) rfl rfl]
    have hu2 : Blake.update { mkState 256 with saltLocked := true } [3]
        = { ({ mkState 256 with saltLocked := true } : Blake) with
            buf := ({ mkState 256 with saltLocked := true } : Blake).buf ++ [3],
            saltLocked := true } := by
      rw [Blake_update_def, show consumed [3] = [3] from rfl]
      exact update_small _ [3] rfl (by decide)
    rw [hhash,
      show List.foldl Blake.update (mkState 256)
          [2 :: List.replicate (2 ^ 61 - 1) 0, [3]]
        = Blake.update (Blake.update (mkState 256) (2 :: List.replicate (2 ^ 61 - 1) 0)) [3]
        from rfl,
      hu1, hu2]
    decide

/-- C1 amended: for every supported digest size, every byte string `s` of
fewer than `2^61` bytes and every partition of `s` into chunks, feeding the
chunks one by one to a fresh state via `Blake::update` and then calling
`finalise` with a digest-sized buffer yields exactly the digest of the
one-shot `hash(n, s)` call; the `2^61`-byte bound is forced by the wrapper's
`data.len() as u64 * 8` conversion, whose wrap breaks the equivalence at and
beyond `2^61` bytes (see the counterexample and C10). -/
theorem blake_c1 (n : Int) (hn : n ∈ ([224, 256, 384, 512] : List Int))
    (chunks : List (List Nat)) (s : List Nat) (hs : chunks.flatten = s)
    (hlen : s.length < 2 ^ 61) :
    hash n s = some (RustResult.ok
      ((Blake.finalise (List.foldl Blake.update (mkState n) chunks)
          (List.replicate (digestBytes n) 0)).2)) := by
  have hv : n = 224 ∨ n = 256 ∨ n = 384 ∨ n = 512 := by simpa using hn
  have hc0 : native.InitCode n = 0 := by simp [native.InitCode, hv]
  have hcs : ∀ c ∈ chunks, c.length < 2 ^ 61 := by
    intro c hc
    have hle : c.length ≤ chunks.flatten.length := by
      rw [List.length_flatten]
      exact List.le_sum_of_mem (List.mem_map_of_mem List.length hc)
    rw [hs] at hle
    omega
  have hone : hash n s = some (RustResult.ok (engineHash n s)) := by
    unfold hash
    rw [if_pos hc0, consumed_of_small s hlen]
    rfl
  have hopen : (List.foldl native.update (mkState n) chunks).isOpen = true := by
    rw [foldl_update_isOpen]
    rfl
  have hbit : (List.foldl native.update (mkState n) chunks).hashbitlen = n := by
    rw [foldl_update_hashbitlen]
    rfl
  have hdl : (native.Final (List.foldl native.update (mkState n) chunks)).2.1.length
      = digestBytes n := by
    rw [Final_digest_length _ hopen, hbit]
  have hfin : (Blake.finalise (List.foldl native.update (mkState n) chunks)
        (List.replicate (digestBytes n) 0)).2
      = (native.Final (List.foldl native.update (mkState n) chunks)).2.1 := by
    simp only [Blake.finalise]
    rw [hdl]
    have hdrop : List.drop (digestBytes n) (List.replicate (digestBytes n) (0 : Nat)) = [] := by
      have hdl2 := List.drop_length (List.replicate (digestBytes n) (0 : Nat))
      rwa [List.length_replicate] at hdl2
    rw [hdrop, List.append_nil]
  rw [hone, foldl_wrapper_eq_engine chunks (mkState n) hcs, hfin,
    engine_chunk_invariance n chunks s hs]

/-- C1 witness: a concrete chunking of a concrete short string at digest size
256, through the public wrapper operations. -/
theorem blake_c1_witness :
    hash 256 [1, 2, 3] = some (RustResult.ok
      ((Blake.finalise (List.foldl Blake.update (mkState 256) [[1], [2, 3]])
          (List.replicate (digestBytes 256) 0)).2)) :=
  blake_c1 256 (by decide) [[1], [2, 3]] [1, 2, 3] (by decide) (by decide)

end BlakeRs
